import Mathlib

/-!
Verification of the polyfile core: a shallow embedding of
`polyfile/search.py` (trie + Aho-Corasick automaton) and
`polyfile/polyfile.py` (parser registry, match tree, recursive matcher),
with theorems settling the specification claims.

Conventions of the embedding:
* A trie node is identified with its path from the root (`List Nat` of
  byte values); the root is `[]`.  The mutable node objects of the Python
  code are in bijection with these paths, children dictionaries become
  membership of `path ++ [b]` in the node set, and the per-node `_sources`
  sets become an association list `srcs` of `(path, source)` pairs.
* Loops that chase failure links terminate because links strictly decrease
  path length; they are embedded with an explicit fuel argument that is
  always instantiated large enough, keeping every definition structurally
  recursive and kernel-evaluable.
-/

namespace Polyfile

abbrev Path := List Nat

/-- The trie state built by `TrieNode.add` / `ACNode.add`:
`nodes` is the set of node paths (the root `[]` is always present),
`srcs` records each `(terminal node, source)` pair produced by `_add`. -/
structure Trie where
  nodes : List Path
  srcs : List (Path × Path)
deriving Repr, DecidableEq

/-- The loop body of `TrieNode._add` (search.py lines 82-94).  Starting at
node `p`, it walks down the trie along the sequence; when it reaches a byte
whose child is missing it creates that single child and then `break`s out
of the loop (faithful to the source, which stops after the first newly
created node).  Returns the new node set and the node at which the loop
stopped (the node that receives the source). -/
def addLoop (ns : List Path) (p : Path) : Path → List Path × Path
  | [] => (ns, p)
  | b :: rest =>
      if (p ++ [b]) ∈ ns then addLoop ns (p ++ [b]) rest
      else ((p ++ [b]) :: ns, p ++ [b])

/-- `TrieNode.add(sequence)` = `self._add(sequence, sequence)`: run the
`_add` loop from the root and record the sequence as a source on the node
where the loop stopped. -/
def Trie.add (T : Trie) (s : Path) : Trie :=
  let r := addLoop T.nodes [] s
  ⟨r.1, (r.2, s) :: T.srcs⟩

/-- The empty trie: just the root node, no sources. -/
def Trie.empty : Trie := ⟨[[]], []⟩

/-- `MultiSequenceSearch.__init__`: add every sequence to a fresh trie. -/
def buildTrie (seqs : List Path) : Trie := seqs.foldl Trie.add Trie.empty

/-- Whether node `p` of the trie has a nonempty source set
(`len(self._sources) > 0` in `TrieNode.find`). -/
def hasSource (T : Trie) (p : Path) : Bool :=
  T.srcs.any (fun pr => decide (pr.1 = p))

/-- `TrieNode.find(sequence)`, walking from node `p`: at the end of the
sequence it checks that the current node has a nonempty source set;
a missing child returns `False`. -/
def findFrom (T : Trie) (p : Path) : Path → Bool
  | [] => hasSource T p
  | b :: rest => if (p ++ [b]) ∈ T.nodes then findFrom T (p ++ [b]) rest else false

/-- `TrieNode.find(sequence)` from the root. -/
def Trie.find (T : Trie) (s : Path) : Bool := findFrom T [] s

/-!  ## Failure links (`ACNode.finalize`)

`finalize` walks the trie in BFS order and assigns each node a failure
link computed from the links of strictly shallower nodes.  We embed the
computed links as an association table `Path × Path`, built by increasing
node depth (the BFS order of the source visits all shallower nodes before
any deeper one, and a node's link only depends on links of strictly
shallower nodes). -/

/-- Look up the failure link of node `p` in the table (the root and any
node not in the table map to the root). -/
def lookupFall (tab : List (Path × Path)) (p : Path) : Path :=
  match tab.find? (fun pr => decide (pr.1 = p)) with
  | some pr => pr.2
  | none => []

/-- The `while` loop of `ACNode.finalize` (and the identical link-chasing
loop of `MultiSequenceSearch.search`): starting from node `f`, follow
failure links until a node with a child labelled `b` is found or the root
is reached. -/
def fallWalk (ns : List Path) (tab : List (Path × Path)) : Nat → Path → Nat → Path
  | 0, f, _ => f
  | fuel + 1, f, b =>
      if (f ++ [b]) ∈ ns ∨ f = [] then f
      else fallWalk ns tab fuel (lookupFall tab f) b

/-- The body of `ACNode.finalize` for one non-root node `p` (value
`b = p.getLastD 0`, parent `p.dropLast`): walk the failure chain from the
parent's link; if a node with a child labelled `b` was found take that
child, unless that child is `p` itself, in which case (and in the
no-child case) the link is the root. -/
def fallOf (ns : List Path) (tab : List (Path × Path)) (p : Path) : Path :=
  if p = [] then []
  else
    let b := p.getLastD 0
    let f := fallWalk ns tab p.length (lookupFall tab p.dropLast) b
    if (f ++ [b]) ∈ ns then (if f ++ [b] = p then [] else f ++ [b]) else []

/-- Build the failure-link table for all nodes of depth `≤ k`, processing
depths in increasing order (the BFS order of `TrieNode.bfs`). -/
def buildFallTab (ns : List Path) : Nat → List (Path × Path)
  | 0 => [([], [])]
  | k + 1 =>
      let tab := buildFallTab ns k
      tab ++ (ns.filter (fun q => decide (q.length = k + 1))).map
        (fun q => (q, fallOf ns tab q))

/-- The maximal node depth of the trie. -/
def maxLen (ns : List Path) : Nat := (ns.map List.length).foldl max 0

/-- The complete failure-link table computed by `ACNode.finalize`. -/
def finalizeTab (ns : List Path) : List (Path × Path) :=
  buildFallTab ns (maxLen ns)

/-- The failure link of node `p` after `finalize`. -/
def fallLink (ns : List Path) (p : Path) : Path :=
  lookupFall (finalizeTab ns) p

/-!  ## `MultiSequenceSearch.search` -/

/-- One state transition of the search loop: chase failure links until the
current node has a child labelled `c` or the root is reached; then take
the child if present (at the root with no child, stay at the root). -/
def stepState (ns : List Path) (tab : List (Path × Path)) (st : Path) (c : Nat) : Path :=
  let w := fallWalk ns tab (st.length + 1) st c
  if (w ++ [c]) ∈ ns then w ++ [c] else []

/-- The emission loop: from the new state, walk the failure chain down to
the root, yielding `(stream_offset, source)` for every source of every
visited node; the loop stops at the root (`while n is not self.trie`),
so the root's sources are never yielded. -/
def emitAt (srcs : List (Path × Path)) (tab : List (Path × Path)) :
    Nat → Path → Nat → List (Nat × Path)
  | 0, _, _ => []
  | fuel + 1, n, idx =>
      if n = [] then []
      else (srcs.filter (fun pr => decide (pr.1 = n))).map (fun pr => (idx, pr.2))
            ++ emitAt srcs tab fuel (lookupFall tab n) idx

/-- The main loop of `MultiSequenceSearch.search` over the remaining
input, carrying the stream offset and the current state. -/
def searchFrom (T : Trie) (tab : List (Path × Path)) (idx : Nat) (st : Path) :
    List Nat → List (Nat × Path)
  | [] => []
  | c :: rest =>
      let st2 := stepState T.nodes tab st c
      emitAt T.srcs tab (st2.length + 1) st2 idx ++ searchFrom T tab (idx + 1) st2 rest

/-- `MultiSequenceSearch(*seqs).search(input)`: build the trie, finalize
it, and run the Aho-Corasick loop from the root at offset 0. -/
def search (seqs : List Path) (input : List Nat) : List (Nat × Path) :=
  let T := buildTrie seqs
  searchFrom T (finalizeTab T.nodes) 0 [] input

/-- Modelled from the spec (section 8): `source` occurs in the input `T`
ending at (0-based) position `e`, i.e. `e` indexes the last byte of an
occurrence of `source`.  This is the specification-side comparator for
the search claims, not a translation of any source function. -/
def specOccursEndingAt (s T : List Nat) (e : Nat) : Prop :=
  s ≠ [] ∧ e < T.length ∧ s <:+ T.take (e + 1)

instance (s T : List Nat) (e : Nat) : Decidable (specOccursEndingAt s T e) := by
  unfold specOccursEndingAt; infer_instance

/-!  ## The longest-proper-suffix characterisation of failure links

`lps ns p` is the longest proper suffix of `p` that is a node of the
trie (the root `[]` counts); claim C3 states that `finalize` assigns
exactly this node as the failure link of every non-root node. -/

/-- The longest suffix of `w` (possibly `w` itself) that is in `ns`,
defaulting to the root. -/
def longestSufIn (ns : List Path) : Path → Path
  | [] => []
  | a :: rest => if (a :: rest) ∈ ns then a :: rest else longestSufIn ns rest

/-- The longest proper suffix of `p` that is in `ns` (the root if none). -/
def lps (ns : List Path) : Path → Path
  | [] => []
  | _ :: rest => longestSufIn ns rest

/-- The node set of a trie is closed under removing the last byte of a
path: every non-root node's parent is a node. -/
def snocClosed (ns : List Path) : Prop := ∀ p b, p ++ [b] ∈ ns → p ∈ ns

/-!  ## The match tree (`polyfile.py`, class `Match`)

`Match.__init__` appends the new node to its parent's `_children` list at
construction time, so a whole tree is embedded arena-style: a list of
nodes in creation order, where each node stores the index of its parent
(`none` for a root) and the children of node `i` are exactly the indices
whose `parent` field is `some i`, in creation (= list) order. -/

/-- One `Match`/`Submatch` node: `rel` is `relative_offset`, `elen` the
explicit `length` argument (`none` = inferred), `parent` the index of the
parent node in the arena. -/
structure MNode where
  name : String
  rel : Int
  elen : Option Int
  parent : Option Nat
deriving Repr, DecidableEq

def nodeAt (tree : List MNode) (i : Nat) : Option MNode := tree[i]?

def parentOf (tree : List MNode) (j : Nat) : Option Nat :=
  match nodeAt tree j with
  | some nd => nd.parent
  | none => none

/-- `Match._children` of node `i`: the nodes constructed with node `i` as
parent, in creation order. -/
def childrenIdx (tree : List MNode) (i : Nat) : List Nat :=
  (List.range tree.length).filter (fun j => decide (parentOf tree j = some i))

/-- Parent links point to previously created nodes (the `Match`
constructor receives an already existing parent object), checked as a
boolean so concrete trees can be verified by evaluation. -/
def wfParentsB (tree : List MNode) : Bool :=
  (List.range tree.length).all (fun j =>
    match nodeAt tree j with
    | some nd =>
        match nd.parent with
        | some k => decide (k < j)
        | none => true
    | none => true)

/-- `Match.offset`: the parent's global offset plus this node's relative
offset (a root's offset is its relative offset).  The parent chain
strictly decreases the index on well-formed trees, so fuel `i` always
suffices. -/
def offsetF (tree : List MNode) : Nat → Nat → Int
  | 0, i =>
      (match nodeAt tree i with
       | some nd => nd.rel
       | none => 0)
  | fuel + 1, i =>
      match nodeAt tree i with
      | none => 0
      | some nd =>
          match nd.parent with
          | none => nd.rel
          | some p => offsetF tree fuel p + nd.rel

def offset (tree : List MNode) (i : Nat) : Int := offsetF tree i i

/-- Python's builtin `max` over a nonempty list of integers. -/
def imax : List Int → Int
  | [] => 0
  | [x] => x
  | x :: xs => max x (imax xs)

/-- `Match.length`: the explicit length if one was given, otherwise
`max(c.offset + c.length for c in self._children) - self.offset`, or `0`
with no children.  Children have strictly larger indices on well-formed
trees, so fuel `tree.length - i` suffices. -/
def lengthF (tree : List MNode) : Nat → Nat → Int
  | 0, _ => 0
  | fuel + 1, i =>
      match nodeAt tree i with
      | none => 0
      | some nd =>
          match nd.elen with
          | some L => L
          | none =>
              let cs := childrenIdx tree i
              if cs.isEmpty then 0
              else imax (cs.map (fun j => offset tree j + lengthF tree fuel j))
                    - offset tree i

def mlength (tree : List MNode) (i : Nat) : Int := lengthF tree (tree.length - i) i

/-- The worked example of the spec: a root with explicit offset 100 and
omitted length, and two children at relative offsets 10 (length 5) and
20 (length 3). -/
def exTree : List MNode :=
  [⟨"root", 100, none, none⟩,
   ⟨"child1", 10, some 5, some 0⟩,
   ⟨"child2", 20, some 3, some 0⟩]

/-!  ## The recursive matcher (`polyfile.py`, class `Matcher`) -/

/-- One child produced by a parser capability (a `Submatch` descriptor:
display data is irrelevant to the claims, offsets and length are kept). -/
structure ChildSpec where
  name : String
  rel : Int
  elen : Option Int
deriving Repr, DecidableEq

/-- How a parser's lazy submatch sequence terminates after producing its
elements: normal exhaustion (`StopIteration`), an `InvalidMatch`, or any
other exception. -/
inductive PEnd
  | done
  | invalid
  | fault
deriving Repr, DecidableEq

/-- The observable behaviour of one parser capability on one window: the
children it produces, in order, and how the sequence then ends. -/
structure ParserRun where
  outs : List ChildSpec
  ending : PEnd
deriving Repr, DecidableEq

/-- The result of (part of) `Matcher.handle_mimetype`: the extended node
arena, the node indices the generator yielded, and whether an exception
escaped the generator (only a non-`InvalidMatch` error raised on the very
first `next(submatch_iter)` probe propagates; exceptions after the first
yielded element are caught by the inner `except Exception` and logged). -/
structure HRes where
  tree : List MNode
  out : List Nat
  aborted : Bool
deriving Repr, DecidableEq

/-- The body of the `for parser in PARSERS[mimetype]` loop of
`Matcher.handle_mimetype` for one parser: construct the candidate `Match`
(which attaches it to `parent._children` immediately), probe the parser's
submatch iterator once, and then
  * `InvalidMatch` before any output: yield nothing (`except InvalidMatch:
    pass`) — note the candidate stays in the arena, attached to its parent;
  * `StopIteration` before any output: yield only the candidate;
  * any other exception before any output: propagate (abort);
  * at least one child: yield the candidate, the first child and the
    remaining children; an exception after the first child only ends this
    parser's own output (it is logged and swallowed). -/
def runOneParser (tree : List MNode) (parent : Option Nat) (off len : Int)
    (mt : String) (r : ParserRun) : HRes :=
  let im := tree.length
  let tree1 := tree ++ [⟨mt, off, some len, parent⟩]
  match r.outs, r.ending with
  | [], .done => ⟨tree1, [im], false⟩
  | [], .invalid => ⟨tree1, [], false⟩
  | [], .fault => ⟨tree1, [], true⟩
  | c :: cs, _ =>
      let children := (c :: cs).map (fun cd => (⟨cd.name, cd.rel, cd.elen, some im⟩ : MNode))
      let childIdxs := (List.range (c :: cs).length).map (fun j => tree1.length + j)
      ⟨tree1 ++ children, im :: childIdxs, false⟩

/-- The full parser loop of `handle_mimetype` with `self.parse` true:
each registered parser is probed in turn; an escaped exception aborts the
whole generator. -/
def runParsers (tree : List MNode) (parent : Option Nat) (off len : Int)
    (mt : String) : List ParserRun → HRes
  | [] => ⟨tree, [], false⟩
  | r :: rs =>
      let h1 := runOneParser tree parent off len mt r
      if h1.aborted then ⟨h1.tree, h1.out, true⟩
      else
        let h2 := runParsers h1.tree parent off len mt rs
        ⟨h2.tree, h1.out ++ h2.out, h2.aborted⟩

/-- `Matcher.handle_mimetype`: resolve the window length
(`len(data) - offset` when `None`), then probe every registered parser
(`self.parse` true) or yield a single leaf node (`self.parse` false). -/
def handleMimetype (parse : Bool) (runs : List ParserRun) (tree : List MNode)
    (parent : Option Nat) (off : Int) (len? : Option Int) (dataLen : Int)
    (mt : String) : HRes :=
  let len := len?.getD (dataLen - off)
  if parse then runParsers tree parent off len mt runs
  else ⟨tree ++ [⟨mt, off, some len, parent⟩], [tree.length], false⟩

/-- The running state of `Matcher.match` over one window: the MIME
strings accepted so far (`matched_mimetypes`), the node arena, the node
indices yielded so far, and whether an escaped exception has ended the
generator. -/
structure MState where
  matched : List String
  tree : List MNode
  out : List Nat
  aborted : Bool
deriving Repr, DecidableEq

/-- One iteration of the result loop of `Matcher.match`: a result whose
test has no MIME pattern is skipped; a resolved MIME string identical to
an earlier accepted one is skipped; otherwise it is recorded and expanded
through `handle_mimetype` (offset 0, length `None`). -/
def matchStep (reg : String → List ParserRun) (parse : Bool) (dataLen : Int)
    (parent : Option Nat) (st : MState) (res : Option String) : MState :=
  if st.aborted then st
  else
    match res with
    | none => st
    | some mt =>
        if mt ∈ st.matched then st
        else
          let h := handleMimetype parse (reg mt) st.tree parent 0 none dataLen mt
          ⟨st.matched ++ [mt], h.tree, st.out ++ h.out, h.aborted⟩

/-- `Matcher.match` over one window: fold the (flattened) sequence of
signature-test results, starting with an empty `matched_mimetypes` set.
`reg` maps each MIME string to the behaviours of its registered parsers
on this window, in registry iteration order. -/
def matchRun (reg : String → List ParserRun) (parse : Bool) (dataLen : Int)
    (parent : Option Nat) (tree0 : List MNode) (results : List (Option String)) : MState :=
  results.foldl (matchStep reg parse dataLen parent) ⟨[], tree0, [], false⟩

/-- A parser behaviour that yields `n` submatches and then terminates
normally (used to exhibit unbounded node production). -/
def mkChildren (n : Nat) : List ChildSpec :=
  List.replicate n ⟨"sub", 0, some 1⟩

/-!  ## The parser registry (`polyfile.py`, `register_parser` / `PARSERS`)

Python object identity is made explicit: `Parser` instances and
`ParserFunctionWrapper` objects carry a numeric object id.  Neither class
overrides `__eq__` (`ParserFunctionWrapper` overrides only `__hash__`),
so `set` membership in `PARSERS[ft]` compares capabilities by object
identity, which the derived equality on ids models exactly. -/

/-- What `register_parser(...)(p)` receives: a `Parser` instance or a
plain parser function, each identified by its object id. -/
inductive PyParser
  | inst (i : Nat)
  | func (f : Nat)
deriving Repr, DecidableEq

/-- What `PARSERS[ft]` stores: the registered `Parser` instance itself,
or a `ParserFunctionWrapper` object (id `w`) wrapping function `f`. -/
inductive Capability
  | inst (i : Nat)
  | wrapper (w : Nat) (f : Nat)
deriving Repr, DecidableEq

/-- Python `set.add` under identity equality (insertion order kept). -/
def setAdd (s : List Capability) (c : Capability) : List Capability :=
  if c ∈ s then s else s ++ [c]

/-- The `PARSERS` table together with the supply of fresh object ids for
newly constructed wrapper objects. -/
structure Registry where
  entries : String → List Capability
  fresh : Nat

def emptyRegistry : Registry := ⟨fun _ => [], 0⟩

/-- `register_parser(*filetypes)(parser)`: a plain function is wrapped in
a brand-new `ParserFunctionWrapper` object (fresh id) on every call; the
resulting capability is added to the set of every given filetype. -/
def registerParser (fts : List String) (p : PyParser) (R : Registry) : Registry :=
  let capFresh :=
    match p with
    | .inst i => (Capability.inst i, R.fresh)
    | .func f => (Capability.wrapper R.fresh f, R.fresh + 1)
  ⟨fun ft => if ft ∈ fts then setAdd (R.entries ft) capFresh.1 else R.entries ft,
    capFresh.2⟩

/-- How many entries of `PARSERS[t]` represent the registered capability
`p`: the instance itself, or any wrapper around the function. -/
def entriesFor (R : Registry) (t : String) (p : PyParser) : Nat :=
  match p with
  | .inst i => (R.entries t).count (Capability.inst i)
  | .func f =>
      (R.entries t).countP (fun c =>
        match c with
        | .wrapper _ f' => decide (f' = f)
        | _ => false)

/-- All wrapper object ids in a capability list are below the fresh-id
supply (true of every registry reachable from `emptyRegistry`). -/
def freshOk (caps : List Capability) (n : Nat) : Bool :=
  caps.all (fun c =>
    match c with
    | .wrapper w _ => decide (w < n)
    | _ => true)

theorem longestSufIn_suffix (ns : List Path) (w : Path) : longestSufIn ns w <:+ w := by
  induction w with
  | nil => exact List.suffix_refl _
  | cons a rest ih =>
      unfold longestSufIn
      by_cases h : (a :: rest) ∈ ns
      · simp [h]
      · simpa [h] using ih.trans (List.suffix_cons a rest)

theorem longestSufIn_mem (ns : List Path) (w : Path) (h0 : [] ∈ ns) :
    longestSufIn ns w ∈ ns := by
  induction w with
  | nil => exact h0
  | cons a rest ih =>
      unfold longestSufIn
      by_cases h : (a :: rest) ∈ ns <;> simp [h, ih]

theorem longestSufIn_max (ns : List Path) {w s : Path} (hs : s <:+ w) (hmem : s ∈ ns) :
    s <:+ longestSufIn ns w := by
  induction w with
  | nil =>
      have : s = [] := List.eq_nil_of_suffix_nil hs
      simp [longestSufIn, this]
  | cons a rest ih =>
      unfold longestSufIn
      by_cases h : (a :: rest) ∈ ns
      · simpa [h] using hs
      · have hne : s ≠ a :: rest := fun he => h (he ▸ hmem)
        rcases List.suffix_cons_iff.mp hs with he | hsr
        · exact absurd he hne
        · simpa [h] using ih hsr

theorem lps_suffix (ns : List Path) (p : Path) : lps ns p <:+ p := by
  cases p with
  | nil => exact List.suffix_refl _
  | cons a rest => exact (longestSufIn_suffix ns rest).trans (List.suffix_cons a rest)

theorem lps_mem (ns : List Path) (p : Path) (h0 : [] ∈ ns) : lps ns p ∈ ns := by
  cases p with
  | nil => exact h0
  | cons a rest => exact longestSufIn_mem ns rest h0

theorem lps_length_lt (ns : List Path) {p : Path} (hne : p ≠ []) :
    (lps ns p).length < p.length := by
  cases p with
  | nil => exact absurd rfl hne
  | cons a rest =>
      have := (longestSufIn_suffix ns rest).length_le
      simp only [lps, List.length_cons]
      omega

theorem lps_ne (ns : List Path) {p : Path} (hne : p ≠ []) : lps ns p ≠ p := by
  intro h
  have := lps_length_lt ns hne
  rw [h] at this
  omega

theorem lps_max (ns : List Path) {p s : Path} (hs : s <:+ p) (hne : s ≠ p)
    (hmem : s ∈ ns) : s <:+ lps ns p := by
  cases p with
  | nil => exact absurd (List.eq_nil_of_suffix_nil hs) hne
  | cons a rest =>
      rcases List.suffix_cons_iff.mp hs with he | hsr
      · exact absurd he hne
      · exact longestSufIn_max ns hsr hmem

/-!  ### Suffix utilities -/

theorem suffix_snoc_mono {s P : Path} (b : Nat) (h : s <:+ P) :
    s ++ [b] <:+ P ++ [b] := by
  obtain ⟨u, rfl⟩ := h
  exact ⟨u, (List.append_assoc u s [b]).symm⟩

theorem suffix_snoc_cases {t P : Path} {b : Nat} (h : t <:+ P ++ [b]) :
    t = [] ∨ ∃ s, s <:+ P ∧ t = s ++ [b] := by
  rcases List.eq_nil_or_concat t with rfl | ⟨s, c, rfl⟩
  · exact Or.inl rfl
  · right
    obtain ⟨u, hu⟩ := h
    rw [List.concat_eq_append, ← List.append_assoc] at hu
    obtain ⟨h1, h2⟩ := List.append_inj' hu rfl
    obtain rfl : c = b := by simpa using h2
    exact ⟨s, ⟨u, h1⟩, by simp⟩

theorem suffix_eq_of_length {s t : Path} (h : s <:+ t) (hl : t.length ≤ s.length) :
    s = t := by
  obtain ⟨u, rfl⟩ := h
  have : u.length = 0 := by
    have := List.length_append u s
    omega
  obtain rfl : u = [] := List.length_eq_zero.mp this
  rfl

theorem suffix_antisymm {s t : Path} (h1 : s <:+ t) (h2 : t <:+ s) : s = t :=
  suffix_eq_of_length h1 h2.length_le

theorem snoc_ne_of_ne {s P : Path} (b : Nat) (h : s ≠ P) : s ++ [b] ≠ P ++ [b] := by
  intro he
  exact h (List.append_inj' he rfl).1

/-!  ### Correctness of the `finalize` failure-link computation -/

theorem suffix_length_lt {f P : Path} (hs : f <:+ P) (hne : f ≠ P) :
    f.length < P.length := by
  rcases Nat.lt_or_ge f.length P.length with h | h
  · exact h
  · exact absurd (suffix_eq_of_length hs h) hne

/-- The `while` loop of `finalize`, walking from a proper suffix `f` of the
parent path `P` whose link table is already correct for shallower nodes,
stops at the longest proper suffix of `P` (in the trie) that has a child
labelled `b`, or at the root. -/
theorem fallWalk_spec (ns : List Path) (tab : List (Path × Path)) (P : Path) (b : Nat)
    (h0 : [] ∈ ns)
    (hIH : ∀ r, r ∈ ns → r.length < P.length → lookupFall tab r = lps ns r) :
    ∀ fuel f, f ∈ ns → f <:+ P → f ≠ P → f.length < fuel →
      (∀ s, s <:+ P → s ≠ P → s ∈ ns → (s ++ [b]) ∈ ns → s <:+ f) →
      (fallWalk ns tab fuel f b ∈ ns
        ∧ fallWalk ns tab fuel f b <:+ P
        ∧ fallWalk ns tab fuel f b ≠ P
        ∧ (∀ s, s <:+ P → s ≠ P → s ∈ ns → (s ++ [b]) ∈ ns →
            s <:+ fallWalk ns tab fuel f b)
        ∧ ((fallWalk ns tab fuel f b ++ [b]) ∈ ns ∨ fallWalk ns tab fuel f b = [])) := by
  intro fuel
  induction fuel with
  | zero => intro f _ _ _ hlt _; omega
  | succ fuel ih =>
      intro f hf hsuf hne hlt hmax
      by_cases hstop : (f ++ [b]) ∈ ns ∨ f = []
      · rw [fallWalk, if_pos hstop]
        exact ⟨hf, hsuf, hne, hmax, hstop⟩
      · rw [fallWalk, if_neg hstop]
        push_neg at hstop
        obtain ⟨hnb, hfne⟩ := hstop
        have hflt : f.length < P.length := suffix_length_lt hsuf hne
        rw [hIH f hf hflt]
        have hlps_lt : (lps ns f).length < f.length := lps_length_lt ns hfne
        refine ih (lps ns f) (lps_mem ns f h0) ((lps_suffix ns f).trans hsuf) ?_ (by omega) ?_
        · intro he
          have := he ▸ hlps_lt
          omega
        · intro s h1 h2 h3 h4
          have hsf : s <:+ f := hmax s h1 h2 h3 h4
          have hsnef : s ≠ f := fun he => hnb (he ▸ h4)
          exact lps_max ns hsf hsnef h3

/-- The per-node body of `finalize` computes the longest proper suffix
present in the trie, provided the link table is correct for all strictly
shallower nodes. -/
theorem fallOf_eq_lps (ns : List Path) (tab : List (Path × Path))
    (h0 : [] ∈ ns) (hcl : snocClosed ns) {q : Path} (hq : q ∈ ns) (hne : q ≠ [])
    (hIH : ∀ r, r ∈ ns → r.length < q.length → lookupFall tab r = lps ns r) :
    fallOf ns tab q = lps ns q := by
  rcases List.eq_nil_or_concat q with rfl | ⟨P, b, rfl⟩
  · exact absurd rfl hne
  rw [List.concat_eq_append] at *
  have hP : P ∈ ns := hcl P b hq
  simp only [fallOf, if_neg hne, List.dropLast_concat, List.getLastD_concat]
  by_cases hPnil : P = []
  · subst hPnil
    have hroot : lookupFall tab [] = lps ns [] := hIH [] h0 (by simp)
    simp only [List.nil_append] at *
    rw [hroot]
    simp only [lps, List.length_cons, List.length_nil]
    rw [fallWalk, if_pos (Or.inr rfl)]
    simp [hq, lps, longestSufIn]
  · have hPlink : lookupFall tab P = lps ns P :=
      hIH P hP (by simp [List.length_append])
    rw [hPlink]
    have hIH' : ∀ r, r ∈ ns → r.length < P.length → lookupFall tab r = lps ns r := by
      intro r hr hlt
      exact hIH r hr (by simp [List.length_append]; omega)
    have hw := fallWalk_spec ns tab P b h0 hIH' (P ++ [b]).length (lps ns P)
      (lps_mem ns P h0) (lps_suffix ns P) (lps_ne ns hPnil)
      (by have := lps_length_lt ns hPnil; simp [List.length_append]; omega)
      (fun s h1 h2 h3 _ => lps_max ns h1 h2 h3)
    set w := fallWalk ns tab (P ++ [b]).length (lps ns P) b with hwdef
    obtain ⟨w_mem, w_suf, w_ne, w_max, w_child⟩ := hw
    rcases w_child with hwb | hw0
    · rw [if_pos hwb, if_neg (snoc_ne_of_ne b w_ne)]
      refine (suffix_antisymm ?_ ?_).symm
      · rcases suffix_snoc_cases (lps_suffix ns (P ++ [b])) with hnil | ⟨s, hsP, heq⟩
        · simp [hnil]
        · have hsmem : s ∈ ns := hcl s b (heq ▸ lps_mem ns (P ++ [b]) h0)
          have hsbmem : (s ++ [b]) ∈ ns := heq ▸ lps_mem ns (P ++ [b]) h0
          have hsne : s ≠ P := by
            intro he
            have hlne : lps ns (P ++ [b]) ≠ P ++ [b] := lps_ne ns (by simp)
            exact hlne (by rw [heq, he])
          have := w_max s hsP hsne hsmem hsbmem
          rw [heq]
          exact suffix_snoc_mono b this
      · exact lps_max ns (suffix_snoc_mono b w_suf) (snoc_ne_of_ne b w_ne) hwb
    · rw [hw0]
      rw [hw0] at w_max
      simp only [List.nil_append]
      by_cases hb : [b] ∈ ns
      · rw [if_pos hb]
        have hbne : ([b] : Path) ≠ P ++ [b] := by
          intro he
          apply hPnil
          have hl := congrArg List.length he
          simp only [List.length_append, List.length_cons, List.length_nil] at hl
          have hz : P.length = 0 := by omega
          exact List.length_eq_zero.mp hz
        rw [if_neg hbne]
        refine (suffix_antisymm ?_ ?_).symm
        · rcases suffix_snoc_cases (lps_suffix ns (P ++ [b])) with hnil | ⟨s, hsP, heq⟩
          · simp [hnil]
          · have hsmem : s ∈ ns := hcl s b (heq ▸ lps_mem ns (P ++ [b]) h0)
            have hsbmem : (s ++ [b]) ∈ ns := heq ▸ lps_mem ns (P ++ [b]) h0
            have hsne : s ≠ P := by
              intro he
              have hlne : lps ns (P ++ [b]) ≠ P ++ [b] := lps_ne ns (by simp)
              exact hlne (by rw [heq, he])
            have hsnil : s = [] := List.eq_nil_of_suffix_nil (w_max s hsP hsne hsmem hsbmem)
            rw [heq, hsnil]
            simp
        · refine lps_max ns ?_ hbne hb
          exact suffix_snoc_mono b List.nil_suffix
      · rw [if_neg hb]
        rcases suffix_snoc_cases (lps_suffix ns (P ++ [b])) with hnil | ⟨s, hsP, heq⟩
        · exact hnil.symm
        · have hsmem : s ∈ ns := hcl s b (heq ▸ lps_mem ns (P ++ [b]) h0)
          have hsbmem : (s ++ [b]) ∈ ns := heq ▸ lps_mem ns (P ++ [b]) h0
          have hsne : s ≠ P := by
            intro he
            have hlne : lps ns (P ++ [b]) ≠ P ++ [b] := lps_ne ns (by simp)
            exact hlne (by rw [heq, he])
          have hsnil : s = [] := List.eq_nil_of_suffix_nil (w_max s hsP hsne hsmem hsbmem)
          rw [hsnil] at hsbmem
          simp at hsbmem
          exact absurd hsbmem hb

theorem buildFallTab_key_len (ns : List Path) :
    ∀ k, ∀ pr ∈ buildFallTab ns k, pr.1.length ≤ k := by
  intro k
  induction k with
  | zero => intro pr hpr; simp [buildFallTab] at hpr; simp [hpr]
  | succ k ih =>
      intro pr hpr
      simp only [buildFallTab, List.mem_append] at hpr
      rcases hpr with h | h
      · exact (ih pr h).trans (Nat.le_succ k)
      · obtain ⟨q, hq, rfl⟩ := List.mem_map.mp h
        have := (List.mem_filter.mp hq).2
        simp only [decide_eq_true_eq] at this
        simp [this]

theorem find?_map_pair {l : List Path} {q : Path} (g : Path → Path) (hq : q ∈ l) :
    (l.map (fun x => (x, g x))).find? (fun pr => decide (pr.1 = q)) = some (q, g q) := by
  induction l with
  | nil => cases hq
  | cons x xs ih =>
      by_cases hxq : x = q
      · subst hxq
        simp [List.find?_cons_of_pos]
      · rw [List.map_cons, List.find?_cons_of_neg _ (by simp [hxq])]
        rcases List.mem_cons.mp hq with h | h
        · exact absurd h.symm hxq
        · exact ih h

/-- After processing all depths up to `k`, the link table maps every trie
node of depth `≤ k` to its longest proper suffix present in the trie. -/
theorem buildFallTab_find (ns : List Path) (h0 : [] ∈ ns) (hcl : snocClosed ns) :
    ∀ k q, q ∈ ns → q.length ≤ k →
      (buildFallTab ns k).find? (fun pr => decide (pr.1 = q)) = some (q, lps ns q) := by
  intro k
  induction k with
  | zero =>
      intro q hq hlen
      obtain rfl : q = [] := List.length_eq_zero.mp (Nat.le_zero.mp hlen)
      simp [buildFallTab, List.find?_cons_of_pos, lps]
  | succ k ih =>
      intro q hq hlen
      simp only [buildFallTab, List.find?_append]
      by_cases hk : q.length ≤ k
      · rw [ih q hq hk]
        rfl
      · have hlen' : q.length = k + 1 := by omega
        have hnone : (buildFallTab ns k).find? (fun pr => decide (pr.1 = q)) = none := by
          rw [List.find?_eq_none]
          intro pr hpr
          have := buildFallTab_key_len ns k pr hpr
          simp only [decide_eq_true_eq]
          intro he
          rw [he] at this
          omega
        rw [hnone, Option.none_or]
        have hqf : q ∈ ns.filter (fun q' => decide (q'.length = k + 1)) :=
          List.mem_filter.mpr ⟨hq, by simp [hlen']⟩
        rw [find?_map_pair (fallOf ns (buildFallTab ns k)) hqf]
        have heq : fallOf ns (buildFallTab ns k) q = lps ns q := by
          refine fallOf_eq_lps ns (buildFallTab ns k) h0 hcl hq ?_ ?_
          · intro he
            rw [he] at hlen'
            simp at hlen'
          · intro r hr hlt
            unfold lookupFall
            rw [ih r hr (by omega)]
        rw [heq]

theorem foldl_max_ge (l : List Nat) : ∀ a, (∀ x ∈ l, x ≤ l.foldl max a) ∧ a ≤ l.foldl max a := by
  induction l with
  | nil => intro a; simp
  | cons y ys ih =>
      intro a
      obtain ⟨h1, h2⟩ := ih (max a y)
      refine ⟨?_, ?_⟩
      · intro x hx
        rcases List.mem_cons.mp hx with rfl | hx
        · exact le_trans (le_max_right a x) (by simpa using h2)
        · simpa using h1 x hx
      · exact le_trans (le_max_left a y) (by simpa using h2)

theorem le_maxLen (ns : List Path) {q : Path} (hq : q ∈ ns) : q.length ≤ maxLen ns :=
  (foldl_max_ge (ns.map List.length) 0).1 q.length (List.mem_map_of_mem List.length hq)

/-- The failure link computed by `finalize` is the longest proper suffix
of the node's path present in the trie. -/
theorem fallLink_eq_lps (ns : List Path) (h0 : [] ∈ ns) (hcl : snocClosed ns)
    {q : Path} (hq : q ∈ ns) : fallLink ns q = lps ns q := by
  unfold fallLink finalizeTab lookupFall
  rw [buildFallTab_find ns h0 hcl (maxLen ns) q hq (le_maxLen ns hq)]

/-!  ### The node set built by `add` is a trie (prefix-closed) -/

theorem addLoop_sub (s : Path) : ∀ ns p, ns ⊆ (addLoop ns p s).1 := by
  induction s with
  | nil => intro ns p; exact fun _ h => h
  | cons b rest ih =>
      intro ns p
      unfold addLoop
      by_cases hm : (p ++ [b]) ∈ ns
      · simpa [hm] using ih ns (p ++ [b])
      · simp only [if_neg hm]
        exact fun x h => List.mem_cons_of_mem _ h

theorem addLoop_root_mem (s : Path) : ∀ ns p, [] ∈ ns → [] ∈ (addLoop ns p s).1 :=
  fun ns p h0 => addLoop_sub s ns p h0

theorem addLoop_closed (s : Path) :
    ∀ ns p, snocClosed ns → p ∈ ns → snocClosed (addLoop ns p s).1 := by
  induction s with
  | nil => intro ns p hcl _; exact hcl
  | cons b rest ih =>
      intro ns p hcl hp
      unfold addLoop
      by_cases hm : (p ++ [b]) ∈ ns
      · simpa [hm] using ih ns (p ++ [b]) hcl hm
      · simp only [if_neg hm]
        intro q c hqc
        rcases List.mem_cons.mp hqc with he | hin
        · obtain ⟨rfl, -⟩ := List.append_inj' he rfl
          exact List.mem_cons_of_mem _ hp
        · exact List.mem_cons_of_mem _ (hcl q c hin)

theorem buildTrie_from (ss : List Path) :
    ∀ T : Trie, [] ∈ T.nodes → snocClosed T.nodes →
      [] ∈ (ss.foldl Trie.add T).nodes ∧ snocClosed (ss.foldl Trie.add T).nodes := by
  induction ss with
  | nil => intro T h0 hcl; exact ⟨h0, hcl⟩
  | cons s rest ih =>
      intro T h0 hcl
      refine ih (Trie.add T s) (addLoop_root_mem s T.nodes [] h0) ?_
      exact addLoop_closed s T.nodes [] hcl h0

theorem buildTrie_root_mem (ss : List Path) : [] ∈ (buildTrie ss).nodes :=
  (buildTrie_from ss Trie.empty (by simp [Trie.empty]) (by
    intro p b h
    simp [Trie.empty] at h)).1

theorem buildTrie_closed (ss : List Path) : snocClosed (buildTrie ss).nodes :=
  (buildTrie_from ss Trie.empty (by simp [Trie.empty]) (by
    intro p b h
    simp [Trie.empty] at h)).2

/-!  ## Claim theorems -/

/-- C1: the claim states that `search` reports exactly the occurrences of
the given sequences.  Evaluating the code on the concrete pattern set
`{[5, 6]}` and input `[5]` shows a false positive: the pair `(0, [5, 6])`
is reported although `[5, 6]` does not occur in `[5]` at all.  (The cause
is the early `break` in `TrieNode._add`, which attaches the source
`[5, 6]` to the node `[5]`.)  This contradicts the claim, and also makes
the assertion in the module's own `__main__` self-test fail. -/
theorem c1_code_evaluation :
    search [[5, 6]] [5] = [(0, [5, 6])] ∧ ¬ specOccursEndingAt [5, 6] [5] 0 := by
  constructor
  · rfl
  · decide


/-- C3: after `finalize()` on a trie built by a sequence of `add` calls,
the root's failure link is the root itself, and every non-root node's
failure link is the node whose path is the longest proper suffix of that
node's path that is present in the trie (the root is always a node, so
the longest such suffix always exists; the "no proper suffix is present"
case of the claim collapses into the link being the root `[]`). -/
theorem c3_failure_links (ss : List Path) (p : Path)
    (hp : p ∈ (buildTrie ss).nodes) (hne : p ≠ []) :
    fallLink (buildTrie ss).nodes [] = []
    ∧ fallLink (buildTrie ss).nodes p ∈ (buildTrie ss).nodes
    ∧ fallLink (buildTrie ss).nodes p <:+ p
    ∧ fallLink (buildTrie ss).nodes p ≠ p
    ∧ (∀ q ∈ (buildTrie ss).nodes, q <:+ p → q ≠ p →
        q.length ≤ (fallLink (buildTrie ss).nodes p).length) := by
  have h0 := buildTrie_root_mem ss
  have hcl := buildTrie_closed ss
  have hroot : fallLink (buildTrie ss).nodes [] = [] := by
    rw [fallLink_eq_lps _ h0 hcl h0]
    rfl
  have hp' := fallLink_eq_lps _ h0 hcl hp
  rw [hp']
  exact ⟨hroot, lps_mem _ p h0, lps_suffix _ p, lps_ne _ hne,
    fun q hq hsuf hqne => (lps_max _ hsuf hqne hq).length_le⟩

theorem c3_failure_links_witness :
    ([1] ∈ (buildTrie [[1, 2]]).nodes ∧ ([1] : Path) ≠ [])
    ∧ (fallLink (buildTrie [[1, 2]]).nodes [] = []
      ∧ fallLink (buildTrie [[1, 2]]).nodes [1] ∈ (buildTrie [[1, 2]]).nodes
      ∧ fallLink (buildTrie [[1, 2]]).nodes [1] <:+ [1]
      ∧ fallLink (buildTrie [[1, 2]]).nodes [1] ≠ [1]
      ∧ (∀ q ∈ (buildTrie [[1, 2]]).nodes, q <:+ [1] → q ≠ [1] →
          q.length ≤ (fallLink (buildTrie [[1, 2]]).nodes [1]).length)) :=
  ⟨⟨by decide, by decide⟩, c3_failure_links [[1, 2]] [1] (by decide) (by decide)⟩

/-!  ### The empty sequence: accepted by `add`, never reported by `search` -/

theorem mem_srcs_foldl (ss : List Path) :
    ∀ T : Trie, ∀ pr, pr ∈ T.srcs → pr ∈ (ss.foldl Trie.add T).srcs := by
  induction ss with
  | nil => intro T pr h; exact h
  | cons s rest ih =>
      intro T pr h
      exact ih (Trie.add T s) pr (List.mem_cons_of_mem _ h)

theorem empty_src_mem (ss : List Path) (h : [] ∈ ss) :
    ∀ T : Trie, (([] : Path), ([] : Path)) ∈ (ss.foldl Trie.add T).srcs := by
  induction ss with
  | nil => cases h
  | cons s rest ih =>
      intro T
      rcases List.mem_cons.mp h with h1 | h1
      · obtain rfl : s = [] := h1.symm
        exact mem_srcs_foldl rest (Trie.add T []) _ (List.mem_cons_self _ _)
      · exact ih h1 (Trie.add T s)

/-- Sources recorded on the root node can only be the empty sequence:
`_add` of a nonempty sequence always stops at a nonempty path. -/
theorem addLoop_snd_nonnil (s : Path) (hs : s ≠ []) :
    ∀ ns p, (addLoop ns p s).2 ≠ [] := by
  induction s with
  | nil => exact absurd rfl hs
  | cons b rest ih =>
      intro ns p
      unfold addLoop
      by_cases hm : (p ++ [b]) ∈ ns
      · rw [if_pos hm]
        by_cases hrest : rest = []
        · subst hrest
          simp [addLoop]
        · exact ih hrest ns (p ++ [b])
      · rw [if_neg hm]
        simp

theorem srcs_shape (ss : List Path) :
    ∀ T : Trie, (∀ pr ∈ T.srcs, pr.2 = ([] : Path) → pr.1 = ([] : Path)) →
      ∀ pr ∈ (ss.foldl Trie.add T).srcs, pr.2 = ([] : Path) → pr.1 = ([] : Path) := by
  induction ss with
  | nil => intro T h; exact h
  | cons s rest ih =>
      intro T h
      refine ih (Trie.add T s) ?_
      intro pr hpr h2
      rcases List.mem_cons.mp hpr with h1 | h1
      · have hs : s = [] := by
          rw [h1] at h2
          exact h2
        subst hs
        rw [h1]
        rfl
      · exact h pr h1 h2

theorem buildTrie_srcs_shape (ss : List Path) :
    ∀ pr ∈ (buildTrie ss).srcs, pr.2 = ([] : Path) → pr.1 = ([] : Path) :=
  srcs_shape ss Trie.empty (by intro pr hpr; simp [Trie.empty] at hpr)

theorem emitAt_sources (srcs tab : List (Path × Path)) :
    ∀ fuel n idx e s, (e, s) ∈ emitAt srcs tab fuel n idx →
      ∃ p, p ≠ [] ∧ (p, s) ∈ srcs := by
  intro fuel
  induction fuel with
  | zero => intro n idx e s h; simp [emitAt] at h
  | succ fuel ih =>
      intro n idx e s h
      unfold emitAt at h
      by_cases hn : n = []
      · simp [hn] at h
      · rw [if_neg hn] at h
        rcases List.mem_append.mp h with h1 | h1
        · obtain ⟨pr, hpr, heq⟩ := List.mem_map.mp h1
          obtain ⟨hmem, hkey⟩ := List.mem_filter.mp hpr
          simp only [decide_eq_true_eq] at hkey
          injection heq with he1 he2
          refine ⟨n, hn, ?_⟩
          rw [← hkey, ← he2]
          exact hmem
        · exact ih (lookupFall tab n) idx e s h1

theorem searchFrom_sources (T : Trie) (tab : List (Path × Path)) :
    ∀ (input : List Nat) idx st e s, (e, s) ∈ searchFrom T tab idx st input →
      ∃ p, p ≠ [] ∧ (p, s) ∈ T.srcs := by
  intro input
  induction input with
  | nil => intro idx st e s h; simp [searchFrom] at h
  | cons c rest ih =>
      intro idx st e s h
      unfold searchFrom at h
      rcases List.mem_append.mp h with h1 | h1
      · exact emitAt_sources T.srcs tab _ _ _ e s h1
      · exact ih (idx + 1) _ e s h1

/-- C10: inserting the empty sequence via `add()` is accepted and records
it as a source on the root node, yet `search()` over any input never
emits a match for it: the emission loop stops upon reaching the root and
the root's sources are never reported. -/
theorem c10_empty_sequence (ss : List Path) (h : [] ∈ ss) :
    (([] : Path), ([] : Path)) ∈ (buildTrie ss).srcs
    ∧ ∀ (input : List Nat) (e : Nat), (e, ([] : Path)) ∉ search ss input := by
  constructor
  · exact empty_src_mem ss h Trie.empty
  · intro input e hmem
    simp only [search] at hmem
    obtain ⟨p, hpne, hpmem⟩ := searchFrom_sources _ _ input 0 [] e [] hmem
    exact hpne (buildTrie_srcs_shape ss (p, []) hpmem rfl)

theorem c10_empty_sequence_witness :
    (([] : Path) ∈ [([] : Path)])
    ∧ ((([] : Path), ([] : Path)) ∈ (buildTrie [[]]).srcs
      ∧ ∀ (input : List Nat) (e : Nat), (e, ([] : Path)) ∉ search [[]] input) :=
  ⟨by decide, c10_empty_sequence [[]] (by decide)⟩

/-- C2: the claim states that `add(s)` creates a node for every byte of
`s` and that `find(s)` is true afterwards.  Evaluating the code on the
concrete sequence `[5, 6]` added to an empty trie shows otherwise: only
the node `[5]` is created (the `_add` loop `break`s after the first new
node), the full path `[5, 6]` is absent, the source is recorded on `[5]`,
and `find([5, 6])` returns `False`. -/
theorem c2_code_evaluation :
    Trie.find (Trie.add Trie.empty [5, 6]) [5, 6] = false
      ∧ [5, 6] ∉ (Trie.add Trie.empty [5, 6]).nodes
      ∧ ([5], [5, 6]) ∈ (Trie.add Trie.empty [5, 6]).srcs := by
  refine ⟨rfl, by decide, by decide⟩

/-!  ### Match-tree arena lemmas -/

theorem wfParentsB_spec {tree : List MNode} (h : wfParentsB tree = true) :
    ∀ j nd, nodeAt tree j = some nd → ∀ k, nd.parent = some k → k < j := by
  intro j nd hnd k hk
  have hj : j < tree.length := by
    by_contra hge
    rw [nodeAt, List.getElem?_eq_none (by omega)] at hnd
    cases hnd
  have hall := List.all_eq_true.mp h j (List.mem_range.mpr hj)
  simp only [hnd, hk] at hall
  simpa using hall

theorem nodeAt_append_lt {tree : List MNode} (l2 : List MNode) {j : Nat}
    (h : j < tree.length) : nodeAt (tree ++ l2) j = nodeAt tree j := by
  simp [nodeAt, List.getElem?_append_left h]

theorem parentOf_append_lt {tree : List MNode} (l2 : List MNode) {j : Nat}
    (h : j < tree.length) : parentOf (tree ++ l2) j = parentOf tree j := by
  simp [parentOf, nodeAt_append_lt l2 h]

theorem nodeAt_append_at (tree : List MNode) (nd : MNode) (l2 : List MNode) :
    nodeAt (tree ++ nd :: l2) tree.length = some nd := by
  rw [nodeAt, List.getElem?_append_right (le_refl _)]
  simp

theorem parentOf_append_at (tree : List MNode) (nd : MNode) (l2 : List MNode) :
    parentOf (tree ++ nd :: l2) tree.length = nd.parent := by
  rw [parentOf, nodeAt_append_at]

theorem nodeAt_append_after (tree l2 : List MNode) (j : Nat) :
    nodeAt (tree ++ l2) (tree.length + j) = nodeAt l2 j := by
  rw [nodeAt, List.getElem?_append_right (Nat.le_add_right _ _), nodeAt]
  congr 1
  omega

/-- Appending a node whose parent is `p` to the arena appends its index
to `p`'s children. -/
theorem childrenIdx_append_cand (tree : List MNode) (cand : MNode) (p : Nat)
    (hp : cand.parent = some p) :
    childrenIdx (tree ++ [cand]) p = childrenIdx tree p ++ [tree.length] := by
  unfold childrenIdx
  simp only [List.length_append, List.length_cons, List.length_nil, Nat.zero_add]
  rw [List.range_succ, List.filter_append]
  congr 1
  · apply List.filter_congr
    intro j hj
    have hjlt := List.mem_range.mp hj
    rw [parentOf_append_lt _ hjlt]
  · have hpar : parentOf (tree ++ [cand]) tree.length = some p := by
      rw [parentOf_append_at, hp]
    simp [List.filter, hpar]

/-- The children of a freshly added candidate node are exactly the nodes
appended after it (no older node and no sibling points at it). -/
theorem childrenIdx_runOne (tree : List MNode) (cand : MNode) (children : List MNode)
    (hold : ∀ j, j < tree.length → parentOf tree j ≠ some tree.length)
    (hcand : cand.parent ≠ some tree.length)
    (hch : ∀ nd ∈ children, nd.parent = some tree.length) :
    childrenIdx (tree ++ cand :: children) tree.length
      = (List.range children.length).map (fun j => tree.length + 1 + j) := by
  unfold childrenIdx
  have hlen : (tree ++ cand :: children).length = (tree.length + 1) + children.length := by
    simp [List.length_append, List.length_cons]
    omega
  rw [hlen, List.range_add, List.filter_append, List.filter_map]
  have h1 : (List.range (tree.length + 1)).filter
      (fun j => decide (parentOf (tree ++ cand :: children) j = some tree.length)) = [] := by
    rw [List.filter_eq_nil_iff]
    intro j hj
    have hj' : j < tree.length + 1 := List.mem_range.mp hj
    simp only [decide_eq_true_eq]
    rcases Nat.lt_or_ge j tree.length with hlt | hge
    · rw [parentOf_append_lt _ hlt]
      exact hold j hlt
    · obtain rfl : j = tree.length := by omega
      rw [parentOf_append_at]
      exact hcand
  rw [h1, List.nil_append]
  have h2 : (List.range children.length).filter
      ((fun j => decide (parentOf (tree ++ cand :: children) j = some tree.length))
        ∘ (fun j => tree.length + 1 + j)) = List.range children.length := by
    rw [List.filter_eq_self]
    intro j hj
    have hjlt := List.mem_range.mp hj
    simp only [Function.comp_apply, decide_eq_true_eq]
    have harith : tree.length + 1 + j = tree.length + (1 + j) := by omega
    rw [harith, parentOf, nodeAt_append_after]
    have h1j : 1 + j = j + 1 := by omega
    rw [h1j]
    rw [nodeAt, List.getElem?_cons_succ, List.getElem?_eq_getElem hjlt]
    exact hch _ (List.getElem_mem hjlt)
  rw [h2]

theorem runParsers_cons (tree : List MNode) (parent : Option Nat) (off len : Int)
    (mt : String) (r : ParserRun) (rs : List ParserRun) :
    runParsers tree parent off len mt (r :: rs)
      = (let h1 := runOneParser tree parent off len mt r
         if h1.aborted then ⟨h1.tree, h1.out, true⟩
         else
           let h2 := runParsers h1.tree parent off len mt rs
           ⟨h2.tree, h1.out ++ h2.out, h2.aborted⟩) := rfl

/-- Replacing a post-first-child fault by a normal end does not change
anything `runParsers` produces, in any sibling context. -/
theorem runParsers_congr_mid (parent : Option Nat) (off len : Int) (mt : String)
    (o : ChildSpec) (rest : List ChildSpec) (ps2 : List ParserRun) :
    ∀ (ps1 : List ParserRun) (tree : List MNode),
      runParsers tree parent off len mt (ps1 ++ ⟨o :: rest, PEnd.fault⟩ :: ps2)
        = runParsers tree parent off len mt (ps1 ++ ⟨o :: rest, PEnd.done⟩ :: ps2) := by
  intro ps1
  induction ps1 with
  | nil => intro tree; rfl
  | cons p ps1 ih =>
      intro tree
      rw [List.cons_append, List.cons_append, runParsers_cons, runParsers_cons]
      simp only [ih]

/-!  ## Claim theorems for the matcher -/

/-- C5: the claim states that a candidate rejected by `InvalidMatch`
before any output leaves zero trace: never emitted and absent from every
node's children.  The code does construct the candidate `Match` before
probing the parser, and `Match.__init__` appends it to
`parent._children`; rejection does not undo this.  Concretely: with one
parent node, a parser that raises `InvalidMatch` immediately emits
nothing, yet the candidate (index 1) remains a child of node 0. -/
theorem c5_counterexample :
    (runOneParser [⟨"root", 0, some 10, none⟩] (some 0) 0 5 "x"
        ⟨[], PEnd.invalid⟩).out = []
    ∧ childrenIdx (runOneParser [⟨"root", 0, some 10, none⟩] (some 0) 0 5 "x"
        ⟨[], PEnd.invalid⟩).tree 0 = [1] :=
  ⟨rfl, by decide⟩

/-- C5 (amended): a parser signalling `InvalidMatch` before any output
causes the candidate to be withheld from the output sequence entirely
(and sibling processing continues), but the candidate `Match` object,
constructed before the probe, remains attached to its parent's children
list; only a parentless (top-level) candidate disappears without trace. -/
theorem c5_rejection (tree : List MNode) (parent : Option Nat) (off len : Int)
    (mt : String) (r : ParserRun) (hout : r.outs = []) (hend : r.ending = PEnd.invalid) :
    (runOneParser tree parent off len mt r).out = []
    ∧ (runOneParser tree parent off len mt r).aborted = false
    ∧ (runOneParser tree parent off len mt r).tree
        = tree ++ [⟨mt, off, some len, parent⟩]
    ∧ (∀ p, parent = some p →
        childrenIdx (runOneParser tree parent off len mt r).tree p
          = childrenIdx tree p ++ [tree.length]) := by
  obtain ⟨outs, ending⟩ := r
  simp only at hout hend
  subst hout
  subst hend
  refine ⟨rfl, rfl, rfl, ?_⟩
  intro p hp
  exact childrenIdx_append_cand tree _ p hp

theorem c5_rejection_witness :
    ((⟨[], PEnd.invalid⟩ : ParserRun).outs = []
      ∧ (⟨[], PEnd.invalid⟩ : ParserRun).ending = PEnd.invalid)
    ∧ ((runOneParser [⟨"r", 0, some 9, none⟩] (some 0) 0 4 "y" ⟨[], PEnd.invalid⟩).out = []
      ∧ (runOneParser [⟨"r", 0, some 9, none⟩] (some 0) 0 4 "y" ⟨[], PEnd.invalid⟩).aborted
          = false
      ∧ (runOneParser [⟨"r", 0, some 9, none⟩] (some 0) 0 4 "y" ⟨[], PEnd.invalid⟩).tree
          = [⟨"r", 0, some 9, none⟩] ++ [⟨"y", 0, some 4, some 0⟩]
      ∧ (∀ p, (some 0 : Option Nat) = some p →
          childrenIdx (runOneParser [⟨"r", 0, some 9, none⟩] (some 0) 0 4 "y"
              ⟨[], PEnd.invalid⟩).tree p
            = childrenIdx [⟨"r", 0, some 9, none⟩] p ++ [1])) :=
  ⟨⟨rfl, rfl⟩, c5_rejection [⟨"r", 0, some 9, none⟩] (some 0) 0 4 "y"
    ⟨[], PEnd.invalid⟩ rfl rfl⟩

/-- C6: a parser fault after its first successfully produced child leaves
exactly the already-emitted children attached to the committed candidate,
truncates only that parser's output, and leaves sibling parsers, later
MIME-type tests and the outer match unaffected: the run is
indistinguishable from the same parser ending normally after the same
children, it does not abort, it emits the candidate followed by all `k`
produced children, and the candidate's children in the final arena are
exactly those `k` nodes. -/
theorem c6_partial_failure (tree : List MNode) (parent : Option Nat) (off len : Int)
    (mt : String) (o : ChildSpec) (rest : List ChildSpec)
    (hwf : wfParentsB tree = true)
    (hpar : ∀ k, parent = some k → k < tree.length) :
    runOneParser tree parent off len mt ⟨o :: rest, PEnd.fault⟩
      = runOneParser tree parent off len mt ⟨o :: rest, PEnd.done⟩
    ∧ (runOneParser tree parent off len mt ⟨o :: rest, PEnd.fault⟩).aborted = false
    ∧ (runOneParser tree parent off len mt ⟨o :: rest, PEnd.fault⟩).out
        = tree.length :: (List.range (o :: rest).length).map (fun j => tree.length + 1 + j)
    ∧ childrenIdx (runOneParser tree parent off len mt ⟨o :: rest, PEnd.fault⟩).tree
        tree.length
        = (List.range (o :: rest).length).map (fun j => tree.length + 1 + j)
    ∧ (childrenIdx (runOneParser tree parent off len mt ⟨o :: rest, PEnd.fault⟩).tree
        tree.length).length = (o :: rest).length
    ∧ ∀ ps1 ps2,
        runParsers tree parent off len mt (ps1 ++ ⟨o :: rest, PEnd.fault⟩ :: ps2)
          = runParsers tree parent off len mt (ps1 ++ ⟨o :: rest, PEnd.done⟩ :: ps2) := by
  have hshape : (runOneParser tree parent off len mt ⟨o :: rest, PEnd.fault⟩).tree
      = tree ++ (⟨mt, off, some len, parent⟩ : MNode)
          :: (o :: rest).map (fun cd => (⟨cd.name, cd.rel, cd.elen, some tree.length⟩ : MNode)) := by
    simp [runOneParser, List.append_assoc]
  have hchildren : childrenIdx (runOneParser tree parent off len mt
      ⟨o :: rest, PEnd.fault⟩).tree tree.length
      = (List.range (o :: rest).length).map (fun j => tree.length + 1 + j) := by
    rw [hshape]
    rw [childrenIdx_runOne]
    · rw [List.length_map]
    · intro j hj hcon
      unfold parentOf at hcon
      cases hnd : nodeAt tree j with
      | none => rw [hnd] at hcon; cases hcon
      | some nd =>
          rw [hnd] at hcon
          have := wfParentsB_spec hwf j nd hnd tree.length hcon
          omega
    · intro hcon
      have := hpar tree.length hcon
      omega
    · intro nd hnd
      obtain ⟨cd, -, rfl⟩ := List.mem_map.mp hnd
      rfl
  refine ⟨rfl, rfl, ?_, hchildren, ?_, ?_⟩
  · simp only [runOneParser, List.length_append, List.length_cons, List.length_nil]
  · rw [hchildren, List.length_map, List.length_range]
  · intro ps1 ps2
    exact runParsers_congr_mid parent off len mt o rest ps2 ps1 tree

theorem c6_partial_failure_witness :
    (wfParentsB [⟨"r", 0, some 9, none⟩] = true
      ∧ (∀ k, (some 0 : Option Nat) = some k →
          k < ([⟨"r", 0, some 9, none⟩] : List MNode).length))
    ∧ (runOneParser [⟨"r", 0, some 9, none⟩] (some 0) 0 4 "y"
          ⟨[⟨"s", 1, some 1⟩], PEnd.fault⟩
        = runOneParser [⟨"r", 0, some 9, none⟩] (some 0) 0 4 "y"
          ⟨[⟨"s", 1, some 1⟩], PEnd.done⟩
      ∧ (runOneParser [⟨"r", 0, some 9, none⟩] (some 0) 0 4 "y"
          ⟨[⟨"s", 1, some 1⟩], PEnd.fault⟩).aborted = false
      ∧ (runOneParser [⟨"r", 0, some 9, none⟩] (some 0) 0 4 "y"
          ⟨[⟨"s", 1, some 1⟩], PEnd.fault⟩).out
          = ([⟨"r", 0, some 9, none⟩] : List MNode).length
              :: (List.range ([⟨"s", 1, some 1⟩] : List ChildSpec).length).map
                  (fun j => ([⟨"r", 0, some 9, none⟩] : List MNode).length + 1 + j)
      ∧ childrenIdx (runOneParser [⟨"r", 0, some 9, none⟩] (some 0) 0 4 "y"
            ⟨[⟨"s", 1, some 1⟩], PEnd.fault⟩).tree
            ([⟨"r", 0, some 9, none⟩] : List MNode).length
          = (List.range ([⟨"s", 1, some 1⟩] : List ChildSpec).length).map
              (fun j => ([⟨"r", 0, some 9, none⟩] : List MNode).length + 1 + j)
      ∧ (childrenIdx (runOneParser [⟨"r", 0, some 9, none⟩] (some 0) 0 4 "y"
            ⟨[⟨"s", 1, some 1⟩], PEnd.fault⟩).tree
            ([⟨"r", 0, some 9, none⟩] : List MNode).length).length
          = ([⟨"s", 1, some 1⟩] : List ChildSpec).length
      ∧ ∀ ps1 ps2,
          runParsers [⟨"r", 0, some 9, none⟩] (some 0) 0 4 "y"
              (ps1 ++ ⟨[⟨"s", 1, some 1⟩], PEnd.fault⟩ :: ps2)
            = runParsers [⟨"r", 0, some 9, none⟩] (some 0) 0 4 "y"
              (ps1 ++ ⟨[⟨"s", 1, some 1⟩], PEnd.done⟩ :: ps2)) :=
  ⟨⟨rfl, fun k hk => by cases hk; decide⟩,
    c6_partial_failure [⟨"r", 0, some 9, none⟩] (some 0) 0 4 "y"
      ⟨"s", 1, some 1⟩ [] rfl (fun k hk => by cases hk; decide)⟩

/-!  ### Deduplication of MIME types per window -/

theorem matchStep_skip (reg : String → List ParserRun) (parse : Bool) (dataLen : Int)
    (parent : Option Nat) {st : MState} {m : String}
    (h : m ∈ st.matched ∨ st.aborted = true) :
    matchStep reg parse dataLen parent st (some m) = st := by
  unfold matchStep
  by_cases hab : st.aborted
  · rw [if_pos hab]
  · rw [if_neg hab]
    have hm : m ∈ st.matched := by
      rcases h with hm | hab2
      · exact hm
      · exact absurd hab2 (by simpa using hab)
    simp only [if_pos hm]

theorem matchStep_pres (reg : String → List ParserRun) (parse : Bool) (dataLen : Int)
    (parent : Option Nat) {st : MState} {m : String}
    (h : m ∈ st.matched ∨ st.aborted = true) (r : Option String) :
    m ∈ (matchStep reg parse dataLen parent st r).matched
      ∨ (matchStep reg parse dataLen parent st r).aborted = true := by
  unfold matchStep
  by_cases hab : st.aborted
  · rw [if_pos hab]; exact h
  · rw [if_neg hab]
    cases r with
    | none => exact h
    | some mt =>
        by_cases hmt : mt ∈ st.matched
        · simp only [if_pos hmt]; exact h
        · simp only [if_neg hmt]
          rcases h with hm | hab2
          · exact Or.inl (List.mem_append_left _ hm)
          · exact absurd hab2 (by simpa using hab)

theorem foldl_matchStep_pres (reg : String → List ParserRun) (parse : Bool)
    (dataLen : Int) (parent : Option Nat) {m : String} :
    ∀ (L : List (Option String)) (st : MState),
      (m ∈ st.matched ∨ st.aborted = true) →
      (m ∈ (L.foldl (matchStep reg parse dataLen parent) st).matched
        ∨ (L.foldl (matchStep reg parse dataLen parent) st).aborted = true) := by
  intro L
  induction L with
  | nil => intro st h; exact h
  | cons r rest ih =>
      intro st h
      exact ih _ (matchStep_pres reg parse dataLen parent h r)

theorem matchStep_after (reg : String → List ParserRun) (parse : Bool) (dataLen : Int)
    (parent : Option Nat) (st : MState) (m : String) :
    m ∈ (matchStep reg parse dataLen parent st (some m)).matched
      ∨ (matchStep reg parse dataLen parent st (some m)).aborted = true := by
  unfold matchStep
  by_cases hab : st.aborted
  · rw [if_pos hab]; exact Or.inr hab
  · rw [if_neg hab]
    by_cases hmt : m ∈ st.matched
    · simp only [if_pos hmt]; exact Or.inl hmt
    · simp only [if_neg hmt]
      exact Or.inl (List.mem_append_right _ (List.mem_singleton.mpr rfl))

/-- C7: within one `match()` invocation over one window, once a MIME
string has been accepted, any later signature test resolving to the same
MIME string contributes nothing: the run over a result list containing a
second occurrence of `some m` after a first one is identical, in output,
tree and state, to the run with that second occurrence deleted. -/
theorem c7_dedup (reg : String → List ParserRun) (parse : Bool) (dataLen : Int)
    (parent : Option Nat) (tree0 : List MNode) (xs ys zs : List (Option String))
    (m : String) :
    matchRun reg parse dataLen parent tree0 (xs ++ some m :: (ys ++ some m :: zs))
      = matchRun reg parse dataLen parent tree0 (xs ++ some m :: (ys ++ zs)) := by
  unfold matchRun
  have h2 := matchStep_after reg parse dataLen parent
    (xs.foldl (matchStep reg parse dataLen parent) ⟨[], tree0, [], false⟩) m
  have h3 := foldl_matchStep_pres reg parse dataLen parent ys _ h2
  simp only [List.foldl_append, List.foldl_cons]
  rw [matchStep_skip reg parse dataLen parent h3]

/-!  ### No resource cap in the matcher -/

theorem runOneParser_replicate (n : Nat) :
    (runOneParser [] none 0 0 "m" ⟨mkChildren n, PEnd.done⟩).tree.length = n + 1
    ∧ (runOneParser [] none 0 0 "m" ⟨mkChildren n, PEnd.done⟩).out.length = n + 1
    ∧ (runOneParser [] none 0 0 "m" ⟨mkChildren n, PEnd.done⟩).aborted = false := by
  cases n with
  | zero => exact ⟨rfl, rfl, rfl⟩
  | succ k =>
      have hrep : mkChildren (k + 1)
          = (⟨"sub", 0, some 1⟩ : ChildSpec) :: mkChildren k := by
        simp [mkChildren, List.replicate_succ]
      rw [hrep]
      refine ⟨?_, ?_, rfl⟩
      · simp [runOneParser, mkChildren]
      · simp [runOneParser, mkChildren]

/-- C9: the claim states that the matcher imposes an explicit cap on
recursion depth and/or total node count and aborts with a distinct
resource-exhaustion error when it is exceeded.  The code has no such
mechanism: no candidate node-count bound exists beyond which the matcher
stops or signals an error — for every claimed bound `k`, a parser
behaviour yielding `k + 1` submatches makes the matcher create and emit
more than `k` nodes while terminating normally. -/
theorem c9_counterexample :
    ¬ ∃ k : Nat, ∀ n : Nat, k < n →
      ((runOneParser [] none 0 0 "m" ⟨mkChildren n, PEnd.done⟩).tree.length ≤ k
        ∨ (runOneParser [] none 0 0 "m" ⟨mkChildren n, PEnd.done⟩).aborted = true) := by
  rintro ⟨k, h⟩
  obtain ⟨ht, -, hab⟩ := runOneParser_replicate (k + 1)
  rcases h (k + 1) (by omega) with h1 | h1
  · rw [ht] at h1
    omega
  · rw [hab] at h1
    cases h1

/-- C9 (amended): the matcher imposes no cap on node count (nor on
recursion depth): for every `n`, a parser yielding `n` submatches causes
`n + 1` nodes to be created and emitted with no abort and no
resource-exhaustion error of any kind — the only failure modes are
`InvalidMatch` rejection, logged post-first-child parser faults, and
propagation of a fault raised on the very first probe. -/
theorem c9_amended (n : Nat) :
    (runOneParser [] none 0 0 "m" ⟨mkChildren n, PEnd.done⟩).tree.length = n + 1
    ∧ (runOneParser [] none 0 0 "m" ⟨mkChildren n, PEnd.done⟩).out.length = n + 1
    ∧ (runOneParser [] none 0 0 "m" ⟨mkChildren n, PEnd.done⟩).aborted = false :=
  runOneParser_replicate n

/-!  ### Registration idempotency -/

theorem setAdd_count (s : List Capability) (c : Capability) (h : s.count c ≤ 1) :
    (setAdd s c).count c = 1 := by
  unfold setAdd
  by_cases hm : c ∈ s
  · rw [if_pos hm]
    have := List.count_pos_iff.mpr hm
    omega
  · rw [if_neg hm, List.count_append, List.count_eq_zero_of_not_mem hm,
      List.count_singleton_self]

theorem registerParser_inst_entries (R : Registry) (t : String) (i : Nat) :
    (registerParser [t] (PyParser.inst i) R).entries t
      = setAdd (R.entries t) (Capability.inst i) := by
  unfold registerParser
  simp

theorem registerParser_func_entries (R : Registry) (t : String) (f : Nat) :
    (registerParser [t] (PyParser.func f) R).entries t
      = setAdd (R.entries t) (Capability.wrapper R.fresh f) := by
  unfold registerParser
  simp

theorem registerParser_func_fresh (R : Registry) (t : String) (f : Nat) :
    (registerParser [t] (PyParser.func f) R).fresh = R.fresh + 1 := rfl

theorem not_mem_of_freshOk {caps : List Capability} {n w f' : Nat}
    (h : freshOk caps n = true) (hw : n ≤ w) : Capability.wrapper w f' ∉ caps := by
  intro hmem
  have := List.all_eq_true.mp h _ hmem
  simp only [decide_eq_true_eq] at this
  omega

/-- C4: the claim states registration is idempotent for every capability,
Parser instance or plain function alike.  For a plain function it fails:
each `register_parser` call wraps the function in a brand-new
`ParserFunctionWrapper` object, and since `ParserFunctionWrapper` defines
`__hash__` but not `__eq__`, the `PARSERS[ft]` set compares wrappers by
object identity and keeps both.  Registering function `0` twice under
`"t"` leaves two entries wrapping it. -/
theorem c4_counterexample :
    entriesFor (registerParser ["t"] (PyParser.func 0)
      (registerParser ["t"] (PyParser.func 0) emptyRegistry)) "t" (PyParser.func 0) = 2 := by
  rfl

/-- C4 (amended): registering the same `Parser` instance under the same
MIME type twice yields exactly one entry for it (sets deduplicate by
object identity, and the instance is the same object each time); but
registering the same plain function twice creates two distinct wrapper
objects and adds an entry for that function each time. -/
theorem c4_idempotent (R : Registry) (t : String) (i f : Nat)
    (hinst : entriesFor R t (PyParser.inst i) ≤ 1)
    (hfresh : freshOk (R.entries t) R.fresh = true) :
    entriesFor (registerParser [t] (PyParser.inst i)
        (registerParser [t] (PyParser.inst i) R)) t (PyParser.inst i) = 1
    ∧ entriesFor (registerParser [t] (PyParser.func f)
        (registerParser [t] (PyParser.func f) R)) t (PyParser.func f)
        = entriesFor R t (PyParser.func f) + 2 := by
  constructor
  · show ((registerParser [t] (PyParser.inst i)
        (registerParser [t] (PyParser.inst i) R)).entries t).count (Capability.inst i) = 1
    rw [registerParser_inst_entries, registerParser_inst_entries]
    have h1 : (setAdd (R.entries t) (Capability.inst i)).count (Capability.inst i) = 1 :=
      setAdd_count _ _ hinst
    exact setAdd_count _ _ (by omega)
  · have hne1 : Capability.wrapper R.fresh f ∉ R.entries t :=
      not_mem_of_freshOk hfresh (le_refl _)
    have he1 : (registerParser [t] (PyParser.func f) R).entries t
        = R.entries t ++ [Capability.wrapper R.fresh f] := by
      rw [registerParser_func_entries]
      unfold setAdd
      rw [if_neg hne1]
    have hne2 : Capability.wrapper (R.fresh + 1) f
        ∉ (registerParser [t] (PyParser.func f) R).entries t := by
      rw [he1]
      intro hmem
      rcases List.mem_append.mp hmem with h1 | h1
      · exact not_mem_of_freshOk hfresh (by omega) h1
      · simp at h1
    have he2 : (registerParser [t] (PyParser.func f)
          (registerParser [t] (PyParser.func f) R)).entries t
        = (R.entries t ++ [Capability.wrapper R.fresh f])
            ++ [Capability.wrapper (R.fresh + 1) f] := by
      rw [registerParser_func_entries, registerParser_func_fresh, he1]
      unfold setAdd
      rw [if_neg (he1 ▸ hne2)]
    show ((registerParser [t] (PyParser.func f)
        (registerParser [t] (PyParser.func f) R)).entries t).countP _ = _
    rw [he2]
    simp [List.countP_append, List.countP_cons, entriesFor]

theorem c4_idempotent_witness :
    (entriesFor emptyRegistry "t" (PyParser.inst 0) ≤ 1
      ∧ freshOk (emptyRegistry.entries "t") emptyRegistry.fresh = true)
    ∧ (entriesFor (registerParser ["t"] (PyParser.inst 0)
        (registerParser ["t"] (PyParser.inst 0) emptyRegistry)) "t" (PyParser.inst 0) = 1
      ∧ entriesFor (registerParser ["t"] (PyParser.func 0)
          (registerParser ["t"] (PyParser.func 0) emptyRegistry)) "t" (PyParser.func 0)
          = entriesFor emptyRegistry "t" (PyParser.func 0) + 2) :=
  ⟨⟨by decide, rfl⟩,
    c4_idempotent emptyRegistry "t" 0 0 (by decide) rfl⟩

/-!  ### Offset and length of match-tree nodes -/

theorem offsetF_stable (tree : List MNode) (hwf : wfParentsB tree = true) :
    ∀ i fuel, i ≤ fuel → offsetF tree fuel i = offset tree i := by
  intro i
  induction i using Nat.strong_induction_on with
  | _ i ih =>
      intro fuel hle
      cases fuel with
      | zero =>
          obtain rfl : i = 0 := by omega
          rfl
      | succ g =>
          cases hnd : nodeAt tree i with
          | none =>
              cases i with
              | zero => simp [offset, offsetF, hnd]
              | succ j => simp [offset, offsetF, hnd]
          | some nd =>
              cases hp : nd.parent with
              | none =>
                  cases i with
                  | zero => simp [offset, offsetF, hnd, hp]
                  | succ j => simp [offset, offsetF, hnd, hp]
              | some p =>
                  have hlt : p < i := wfParentsB_spec hwf i nd hnd p hp
                  obtain ⟨j, rfl⟩ : ∃ j, i = j + 1 := ⟨i - 1, by omega⟩
                  have h1 : offsetF tree g p = offset tree p := ih p hlt g (by omega)
                  have h2 : offsetF tree j p = offset tree p := ih p hlt j (by omega)
                  show offsetF tree (g + 1) (j + 1) = offset tree (j + 1)
                  unfold offset
                  simp only [offsetF, hnd, hp, h1, h2]

/-- The `Match.offset` recurrence: a node's global offset is its parent's
global offset plus its relative offset (or just the relative offset for a
root). -/
theorem offset_eq (tree : List MNode) (hwf : wfParentsB tree = true)
    {i : Nat} {nd : MNode} (hnd : nodeAt tree i = some nd) :
    offset tree i = (match nd.parent with
      | some p => offset tree p + nd.rel
      | none => nd.rel) := by
  cases hp : nd.parent with
  | none =>
      cases i with
      | zero => simp [offset, offsetF, hnd, hp]
      | succ j => simp [offset, offsetF, hnd, hp]
  | some p =>
      have hlt : p < i := wfParentsB_spec hwf i nd hnd p hp
      obtain ⟨j, rfl⟩ : ∃ j, i = j + 1 := ⟨i - 1, by omega⟩
      have h2 : offsetF tree j p = offset tree p := offsetF_stable tree hwf p j (by omega)
      unfold offset
      simp only [offsetF, hnd, hp, h2]
      rfl

theorem mem_childrenIdx {tree : List MNode} {i j : Nat} (h : j ∈ childrenIdx tree i) :
    j < tree.length ∧ parentOf tree j = some i := by
  unfold childrenIdx at h
  obtain ⟨hr, hp⟩ := List.mem_filter.mp h
  exact ⟨List.mem_range.mp hr, by simpa using hp⟩

theorem childrenIdx_gt {tree : List MNode} (hwf : wfParentsB tree = true)
    {i j : Nat} (h : j ∈ childrenIdx tree i) : i < j ∧ j < tree.length := by
  obtain ⟨hlt, hp⟩ := mem_childrenIdx h
  unfold parentOf at hp
  cases hnd : nodeAt tree j with
  | none => rw [hnd] at hp; cases hp
  | some nd =>
      rw [hnd] at hp
      exact ⟨wfParentsB_spec hwf j nd hnd i hp, hlt⟩

theorem lengthF_stable (tree : List MNode) (hwf : wfParentsB tree = true) :
    ∀ fuel i, tree.length ≤ fuel + i → lengthF tree fuel i = mlength tree i := by
  intro fuel
  induction fuel using Nat.strong_induction_on with
  | _ fuel ih =>
      intro i hle
      cases fuel with
      | zero =>
          unfold mlength
          rw [show tree.length - i = 0 from by omega]
      | succ g =>
          cases hnd : nodeAt tree i with
          | none =>
              have hge : tree.length ≤ i := by
                by_contra hlt
                rw [nodeAt, List.getElem?_eq_getElem (by omega)] at hnd
                cases hnd
              unfold mlength
              rw [show tree.length - i = 0 from by omega]
              simp only [lengthF, hnd]
          | some nd =>
              have hi : i < tree.length := by
                by_contra h
                rw [nodeAt, List.getElem?_eq_none (by omega)] at hnd
                cases hnd
              unfold mlength
              rw [show tree.length - i = (tree.length - i - 1) + 1 from by omega]
              simp only [lengthF, hnd]
              cases helen : nd.elen with
              | some L => rfl
              | none =>
                  by_cases hcs : (childrenIdx tree i).isEmpty
                  · rw [if_pos hcs, if_pos hcs]
                  · rw [if_neg hcs, if_neg hcs]
                    have hmapL : (childrenIdx tree i).map
                        (fun j => offset tree j + lengthF tree g j)
                        = (childrenIdx tree i).map
                          (fun j => offset tree j + mlength tree j) := by
                      apply List.map_congr_left
                      intro j hj
                      obtain ⟨hij, hjlen⟩ := childrenIdx_gt hwf hj
                      rw [ih g (by omega) j (by omega)]
                    have hmapR : (childrenIdx tree i).map
                        (fun j => offset tree j + lengthF tree (tree.length - i - 1) j)
                        = (childrenIdx tree i).map
                          (fun j => offset tree j + mlength tree j) := by
                      apply List.map_congr_left
                      intro j hj
                      obtain ⟨hij, hjlen⟩ := childrenIdx_gt hwf hj
                      rw [ih (tree.length - i - 1) (by omega) j (by omega)]
                    rw [hmapL, hmapR]

/-- The `Match.length` recurrence: the explicit length when given, else
`max(child.offset + child.length) - offset` over the children, else 0. -/
theorem mlength_eq (tree : List MNode) (hwf : wfParentsB tree = true)
    {i : Nat} {nd : MNode} (hnd : nodeAt tree i = some nd) :
    mlength tree i = (match nd.elen with
      | some L => L
      | none =>
          if childrenIdx tree i = [] then 0
          else imax ((childrenIdx tree i).map (fun j => offset tree j + mlength tree j))
                - offset tree i) := by
  have hi : i < tree.length := by
    by_contra h
    rw [nodeAt, List.getElem?_eq_none (by omega)] at hnd
    cases hnd
  have hL : mlength tree i = lengthF tree ((tree.length - i - 1) + 1) i := by
    have hsub : tree.length - i = tree.length - i - 1 + 1 := by omega
    unfold mlength
    conv_lhs => rw [hsub]
  rw [hL]
  simp only [lengthF, hnd]
  cases helen : nd.elen with
  | some L => simp only [helen]
  | none =>
      simp only [helen]
      by_cases hcs : childrenIdx tree i = []
      · simp [hcs]
      · have hb : (childrenIdx tree i).isEmpty = false := by
          cases hcl : childrenIdx tree i with
          | nil => exact absurd hcl hcs
          | cons a l => rfl
        simp only [hb, Bool.false_eq_true, if_false, if_neg hcs]
        have hmap : (childrenIdx tree i).map
            (fun j => offset tree j + lengthF tree (tree.length - i - 1) j)
            = (childrenIdx tree i).map (fun j => offset tree j + mlength tree j) := by
          apply List.map_congr_left
          intro j hj
          obtain ⟨hij, hjlen⟩ := childrenIdx_gt hwf hj
          rw [lengthF_stable tree hwf (tree.length - i - 1) j (by omega)]
        rw [hmap]

/-- C8: for every node of a well-formed match tree, the global offset is
the parent's global offset plus the node's relative offset (a root's
offset is its relative offset), and the length is the explicit length
when one was given, otherwise the maximum over the children of
`child.offset + child.length` minus the node's offset, or 0 with no
children.  In particular, the spec's worked example — a root at explicit
offset 100 with omitted length and children at relative offsets 10
(length 5) and 20 (length 3) — reports offset 100 and length 23. -/
theorem c8_offset_length (tree : List MNode) (hwf : wfParentsB tree = true)
    (i : Nat) (nd : MNode) (hnd : nodeAt tree i = some nd) :
    (offset tree i = match nd.parent with
      | some p => offset tree p + nd.rel
      | none => nd.rel)
    ∧ (mlength tree i = match nd.elen with
      | some L => L
      | none =>
          if childrenIdx tree i = [] then 0
          else imax ((childrenIdx tree i).map (fun j => offset tree j + mlength tree j))
                - offset tree i)
    ∧ offset exTree 0 = 100
    ∧ mlength exTree 0 = 23 :=
  ⟨offset_eq tree hwf hnd, mlength_eq tree hwf hnd, by decide, by decide⟩

theorem c8_offset_length_witness :
    (wfParentsB exTree = true
      ∧ nodeAt exTree 0 = some ⟨"root", 100, none, none⟩)
    ∧ ((offset exTree 0 = match (⟨"root", 100, none, none⟩ : MNode).parent with
        | some p => offset exTree p + (⟨"root", 100, none, none⟩ : MNode).rel
        | none => (⟨"root", 100, none, none⟩ : MNode).rel)
      ∧ (mlength exTree 0 = match (⟨"root", 100, none, none⟩ : MNode).elen with
        | some L => L
        | none =>
            if childrenIdx exTree 0 = [] then 0
            else imax ((childrenIdx exTree 0).map
                  (fun j => offset exTree j + mlength exTree j))
                  - offset exTree 0)
      ∧ offset exTree 0 = 100
      ∧ mlength exTree 0 = 23) :=
  ⟨⟨rfl, rfl⟩, c8_offset_length exTree rfl 0 ⟨"root", 100, none, none⟩ rfl⟩

end Polyfile
